import Mathlib

/-!
Verification of the YouTube summarizer service against its design
specification.  Strings are modelled as `List Char`; the two source
variants (`app.py` and the yt-dlp variant `app (2).py`) are embedded
in the namespaces `App` and `App2`.  Network effects (the captions
provider, the completion provider) are modelled as explicit
environment values handed to the embedded functions.
-/

/-! ## Shared string utilities (models of the Python primitives used) -/

/-- The whitespace characters stripped by Python's `str.strip()` and
matched by the regex class backslash-s (ASCII model). -/
def isSpace (c : Char) : Bool :=
  c = ' ' || c = '\t' || c = '\n' || c = '\r' || c = '\x0b' || c = '\x0c'

/-- The identifier alphabet of the regex class [a-zA-Z0-9_-]. -/
def isIdChar (c : Char) : Bool :=
  ('a' ≤ c && c ≤ 'z') || ('A' ≤ c && c ≤ 'Z') || ('0' ≤ c && c ≤ '9') ||
  c = '_' || c = '-'

/-- Python `s.strip()`: drop leading and trailing whitespace. -/
def pyStrip (s : List Char) : List Char :=
  ((s.dropWhile isSpace).reverse.dropWhile isSpace).reverse

/-- Python `s.split(chr 10)`. -/
def splitOnNl : List Char → List (List Char)
  | [] => [[]]
  | c :: rest =>
    if c = '\n' then [] :: splitOnNl rest
    else
      match splitOnNl rest with
      | l :: ls => (c :: l) :: ls
      | [] => [[c]]

/-- Python `sep.join(lines)` for a one-character separator. -/
def joinWith (sep : Char) : List (List Char) → List Char
  | [] => []
  | [l] => l
  | l :: ls => l ++ sep :: joinWith sep ls

/-- Python `needle in s` (substring containment). -/
def containsSub (needle : List Char) : List Char → Bool
  | [] => needle.isEmpty
  | c :: rest => needle.isPrefixOf (c :: rest) || containsSub needle rest

/-- Match exactly `n` identifier characters at the front of `s`
(the capturing group `[a-zA-Z0-9_-]\x7bn\x7d` of the URL patterns). -/
def takeId : Nat → List Char → Option (List Char)
  | 0, _ => some []
  | _ + 1, [] => none
  | n + 1, c :: rest =>
    if isIdChar c then (takeId n rest).map (fun l => c :: l) else none

/-- One attempt of the regex engine at the current position: the
literal marker `m` followed by exactly 11 identifier characters. -/
def headTry (m s : List Char) : Option (List Char) :=
  if m.isPrefixOf s then takeId 11 (s.drop m.length) else none

/-- `re.search` for a pattern `(?:m)([a-zA-Z0-9_-]\x7b11\x7d)`:
try every start position left to right, return the first capture. -/
def searchPat (m : List Char) : List Char → Option (List Char)
  | [] => none
  | c :: rest =>
    match headTry m (c :: rest) with
    | some found => some found
    | none => searchPat m rest

/-! ## `extract_video_id` (identical in both variants) -/

namespace App

def pat1 : List Char := ['v', '=']
def pat2 : List Char := ['y', 'o', 'u', 't', 'u', '.', 'b', 'e', '/']
def pat3 : List Char := ['e', 'm', 'b', 'e', 'd', '/']
def pat4 : List Char := ['s', 'h', 'o', 'r', 't', 's', '/']

/-- The bare-identifier test `re.match(r"^[a-zA-Z0-9_-]\x7b11\x7d$", s)`. -/
def isValidId (s : List Char) : Bool :=
  s.length == 11 && s.all isIdChar

/-- `extract_video_id` from `app.py`: try the four URL patterns in
order, then fall back to the trimmed bare identifier. -/
def extract_video_id (url : List Char) : Option (List Char) :=
  match searchPat pat1 url with
  | some v => some v
  | none =>
    match searchPat pat2 url with
    | some v => some v
    | none =>
      match searchPat pat3 url with
      | some v => some v
      | none =>
        match searchPat pat4 url with
        | some v => some v
        | none =>
          if isValidId (pyStrip url) then some (pyStrip url) else none

end App

/-! ## Basic facts about the search primitives -/

theorem isPrefixOf_eq_true_iff {l1 l2 : List Char} :
    l1.isPrefixOf l2 = true ↔ l1 <+: l2 :=
  List.isPrefixOf_iff_prefix

theorem prefixTotal {α : Type} {l1 l2 l3 : List α} (h1 : l1 <+: l3)
    (h2 : l2 <+: l3) : l1 <+: l2 ∨ l2 <+: l1 :=
  List.prefix_or_prefix_of_prefix h1 h2

theorem takeId_of_valid (n : Nat) (s : List Char)
    (hlen : n ≤ s.length) (hall : (s.take n).all isIdChar = true) :
    takeId n s = some (s.take n) := by
  induction n generalizing s with
  | zero => simp [takeId]
  | succ n ih =>
    cases s with
    | nil => simp at hlen
    | cons c rest =>
      simp only [List.take_succ_cons, List.all_cons, Bool.and_eq_true] at hall
      simp only [List.length_cons, Nat.succ_le_succ_iff] at hlen
      simp [takeId, hall.1, ih rest hlen hall.2]

theorem takeId_sound (n : Nat) (s r : List Char) (h : takeId n s = some r) :
    r.length = n ∧ r.all isIdChar = true ∧ s = r ++ s.drop n := by
  induction n generalizing s r with
  | zero =>
    simp [takeId] at h
    subst h
    simp
  | succ n ih =>
    cases s with
    | nil => simp [takeId] at h
    | cons c rest =>
      simp only [takeId] at h
      by_cases hc : isIdChar c
      · rw [if_pos hc, Option.map_eq_some'] at h
        obtain ⟨r', hr', hrr⟩ := h
        obtain ⟨h1, h2, h3⟩ := ih rest r' hr'
        have hrr2 : c :: r' = r := hrr
        subst hrr2
        refine ⟨by simp [h1], by simp [hc, h2], ?_⟩
        simpa using h3
      · simp [hc] at h

theorem searchPat_sound (m url r : List Char) (h : searchPat m url = some r) :
    ∃ p suf, url = p ++ m ++ r ++ suf ∧ r.length = 11 ∧ r.all isIdChar = true := by
  induction url with
  | nil => simp [searchPat] at h
  | cons c rest ih =>
    simp only [searchPat] at h
    cases htry : headTry m (c :: rest) with
    | some found =>
      rw [htry] at h
      cases h
      unfold headTry at htry
      by_cases hp : m.isPrefixOf (c :: rest)
      · rw [if_pos hp] at htry
        rw [isPrefixOf_eq_true_iff] at hp
        obtain ⟨t, ht⟩ := hp
        obtain ⟨h1, h2, h3⟩ := takeId_sound 11 ((c :: rest).drop m.length) r htry
        refine ⟨[], ((c :: rest).drop m.length).drop 11, ?_, h1, h2⟩
        rw [← ht] at h3 ⊢
        rw [List.drop_left] at h3 ⊢
        simp only [List.nil_append, List.append_assoc]
        rw [← h3]
      · rw [if_neg hp] at htry; cases htry
    | none =>
      rw [htry] at h
      obtain ⟨p, suf, hurl, h11, hall⟩ := ih h
      exact ⟨c :: p, suf, by simp [hurl], h11, hall⟩

theorem containsSub_cons (m : List Char) (c : Char) (rest : List Char) :
    containsSub m (c :: rest) = (m.isPrefixOf (c :: rest) || containsSub m rest) :=
  rfl

theorem containsSub_of_decomp (m a b s : List Char) (h : s = a ++ m ++ b) :
    containsSub m s = true := by
  induction a generalizing s with
  | nil =>
    subst h
    cases m with
    | nil => cases b <;> simp [containsSub, List.isEmpty]
    | cons mc mr =>
      rw [List.nil_append, List.cons_append, containsSub_cons]
      have hp : (mc :: mr).isPrefixOf (mc :: (mr ++ b)) = true := by
        rw [isPrefixOf_eq_true_iff]
        exact ⟨b, by simp⟩
      rw [hp, Bool.true_or]
  | cons c a' ih =>
    subst h
    rw [List.cons_append, List.cons_append, containsSub_cons,
      ih (a' ++ m ++ b) rfl, Bool.or_true]

theorem searchPat_none_of_not_sub (m url : List Char)
    (h : containsSub m url = false) : searchPat m url = none := by
  cases hs : searchPat m url with
  | none => rfl
  | some r =>
    obtain ⟨p, suf, hurl, -, -⟩ := searchPat_sound m url r hs
    rw [containsSub_of_decomp m p (r ++ suf) url (by simp [hurl])] at h
    cases h

/-- If some character of the marker occurs nowhere in the string,
the search fails. -/
theorem searchPat_none_of_missing_char (m url : List Char) (c : Char)
    (hc : c ∈ m) (hu : c ∉ url) : searchPat m url = none := by
  cases hs : searchPat m url with
  | none => rfl
  | some r =>
    obtain ⟨p, suf, hurl, -, -⟩ := searchPat_sound m url r hs
    exact absurd (by simp [hurl, hc] : c ∈ url) hu

theorem searchPat_cons (m : List Char) (c : Char) (rest : List Char) :
    searchPat m (c :: rest) =
      (match headTry m (c :: rest) with
       | some found => some found
       | none => searchPat m rest) :=
  rfl

theorem searchPat_cons_of_none (m : List Char) (c : Char) (rest : List Char)
    (h : headTry m (c :: rest) = none) :
    searchPat m (c :: rest) = searchPat m rest := by
  rw [searchPat_cons, h]

/-- The regex engine finds the pattern at the position where the marker
literally starts, provided 11 identifier characters follow. -/
theorem searchPat_found (m l' r : List Char) (hm : m ≠ [])
    (h : takeId 11 l' = some r) : searchPat m (m ++ l') = some r := by
  cases m with
  | nil => exact absurd rfl hm
  | cons mc mr =>
    rw [List.cons_append, searchPat_cons]
    have hp : (mc :: mr).isPrefixOf (mc :: (mr ++ l')) = true := by
      rw [isPrefixOf_eq_true_iff]
      exact ⟨l', by simp⟩
    have : headTry (mc :: mr) (mc :: (mr ++ l')) = some r := by
      unfold headTry
      rw [if_pos hp, ← List.cons_append, List.drop_left, h]
    rw [this]

/-- No start position strictly inside `pre` lets the marker match when
the text continues with the marker itself: checked positionally on the
concrete prefix. -/
def cleanBefore (m pre : List Char) : Bool :=
  pre.tails.all fun t =>
    t.isEmpty ||
    (if m.length ≤ t.length then !(m.isPrefixOf t)
     else !(t.isPrefixOf m && (m.drop t.length).isPrefixOf m))

theorem cleanBefore_of_cons (m : List Char) (c : Char) (pre : List Char)
    (h : cleanBefore m (c :: pre) = true) : cleanBefore m pre = true := by
  unfold cleanBefore at h ⊢
  rw [List.tails_cons, List.all_cons, Bool.and_eq_true] at h
  exact h.2

/-- Walking the search over a clean prefix changes nothing. -/
theorem searchPat_skip_clean (m : List Char) (pre l' : List Char)
    (hc : cleanBefore m pre = true) :
    searchPat m (pre ++ (m ++ l')) = searchPat m (m ++ l') := by
  induction pre with
  | nil => rfl
  | cons c p ih =>
    have hcond : (if m.length ≤ (c :: p).length then !(m.isPrefixOf (c :: p))
        else !((c :: p).isPrefixOf m && (m.drop (c :: p).length).isPrefixOf m)) = true := by
      unfold cleanBefore at hc
      rw [List.tails_cons, List.all_cons, Bool.and_eq_true] at hc
      have := hc.1
      simpa [List.isEmpty] using this
    have hfalse : m.isPrefixOf ((c :: p) ++ (m ++ l')) = false := by
      rw [Bool.eq_false_iff]
      intro htrue
      have hwhole : m <+: (c :: p) ++ (m ++ l') := isPrefixOf_eq_true_iff.mp htrue
      have hself : (c :: p) <+: (c :: p) ++ (m ++ l') := List.prefix_append _ _
      by_cases hlen : m.length ≤ (c :: p).length
      · have hmp : m <+: (c :: p) :=
          List.prefix_of_prefix_length_le hwhole hself hlen
        rw [if_pos hlen, Bool.not_eq_true', Bool.eq_false_iff] at hcond
        exact hcond (isPrefixOf_eq_true_iff.mpr hmp)
      · push_neg at hlen
        have htm : (c :: p) <+: m :=
          List.prefix_of_prefix_length_le hself hwhole (Nat.le_of_lt hlen)
        have hsplit : (c :: p) ++ m.drop (c :: p).length = m := by
          obtain ⟨d, hd⟩ := htm
          rw [← hd, List.drop_left]
        have hdrop : m.drop (c :: p).length <+: m := by
          obtain ⟨r, hr⟩ := hwhole
          have h2 : (c :: p) ++ (m.drop (c :: p).length ++ r) = (c :: p) ++ (m ++ l') := by
            rw [← List.append_assoc, hsplit]
            exact hr
          have hr2 : m.drop (c :: p).length ++ r = m ++ l' := by
            have h3 := congrArg (List.drop (c :: p).length) h2
            rwa [List.drop_left, List.drop_left] at h3
          have hpfx : m.drop (c :: p).length <+: m ++ l' := ⟨r, hr2⟩
          exact List.prefix_of_prefix_length_le hpfx (List.prefix_append _ _)
            (by rw [List.length_drop]; omega)
        rw [if_neg (by omega), Bool.not_eq_true', Bool.and_eq_false_iff] at hcond
        rcases hcond with hcond | hcond
        · rw [Bool.eq_false_iff] at hcond
          exact hcond (isPrefixOf_eq_true_iff.mpr htm)
        · rw [Bool.eq_false_iff] at hcond
          exact hcond (isPrefixOf_eq_true_iff.mpr hdrop)
    have hnone : headTry m ((c :: p) ++ (m ++ l')) = none := by
      unfold headTry
      rw [hfalse]
      simp
    rw [List.cons_append] at hnone ⊢
    rw [searchPat_cons_of_none m c (p ++ (m ++ l')) hnone]
    exact ih (cleanBefore_of_cons m c p hc)

theorem mem_of_getLast?_eq {l : List Char} {a : Char}
    (h : l.getLast? = some a) : a ∈ l := by
  have hx : a ∈ l.getLast? := Option.mem_def.mpr h
  obtain ⟨hne, hx2⟩ := List.mem_getLast?_eq_getLast hx
  rw [hx2]
  exact List.getLast_mem hne

/-- A marker that ends in a non-identifier character and does not occur
in the concrete prefix cannot match anywhere in `prefix ++ identifier`:
it can neither sit inside the prefix nor straddle into the identifier
characters. -/
theorem searchPat_none_of_last_not_id (m pre id : List Char) (hm : m ≠ [])
    (hlast : ∀ c, m.getLast? = some c → isIdChar c = false)
    (hid : id.all isIdChar = true)
    (hsub : containsSub m pre = false) :
    searchPat m (pre ++ id) = none := by
  cases hs : searchPat m (pre ++ id) with
  | none => rfl
  | some r =>
    exfalso
    obtain ⟨p, suf, hurl, -, -⟩ := searchPat_sound m (pre ++ id) r hs
    have hurl2 : pre ++ id = (p ++ m) ++ (r ++ suf) := by
      simpa [List.append_assoc] using hurl
    have hpm : (p ++ m) <+: pre ++ id := ⟨r ++ suf, hurl2.symm⟩
    have hpre : pre <+: pre ++ id := List.prefix_append _ _
    rcases prefixTotal hpm hpre with hcase | hcase
    · obtain ⟨rest, hrest⟩ := hcase
      have : containsSub m pre = true :=
        containsSub_of_decomp m p rest pre (by rw [← hrest, List.append_assoc])
      rw [this] at hsub
      cases hsub
    · obtain ⟨d, hd⟩ := hcase
      cases d with
      | nil =>
        have : containsSub m pre = true :=
          containsSub_of_decomp m p [] pre (by simp [← hd])
        rw [this] at hsub
        cases hsub
      | cons e d' =>
        obtain ⟨c, hc⟩ : ∃ c, m.getLast? = some c := by
          cases m with
          | nil => exact absurd rfl hm
          | cons x xs => exact ⟨(x :: xs).getLast (by simp), List.getLast?_eq_getLast _ _⟩
        have hcid : isIdChar c = false := hlast c hc
        have hlast2 : (e :: d').getLast? = some c := by
          have h1 : (p ++ m).getLast? = some c := by
            rw [List.getLast?_append_of_ne_nil p hm]
            exact hc
          rw [← hd, List.getLast?_append_of_ne_nil pre (by simp)] at h1
          exact h1
        have hcmem : c ∈ (e :: d') := mem_of_getLast?_eq hlast2
        have hid2 : id = (e :: d') ++ (r ++ suf) := by
          have h2 : pre ++ id = pre ++ ((e :: d') ++ (r ++ suf)) := by
            rw [← List.append_assoc, hd]
            exact hurl2
          exact List.append_cancel_left h2
        have hcid2 : isIdChar c = true :=
          List.all_eq_true.mp hid c (by rw [hid2]; exact List.mem_append_left _ hcmem)
        rw [hcid2] at hcid
        cases hcid

theorem not_mem_of_all_false {p : Char → Bool} {l : List Char}
    (h : l.all p = true) {c : Char} (hc : p c = false) : c ∉ l := by
  intro hm
  rw [List.all_eq_true.mp h c hm] at hc
  cases hc

theorem isSpace_eq_false_of_isIdChar {c : Char} (h : isIdChar c = true) :
    isSpace c = false := by
  cases hsp : isSpace c
  · rfl
  · exfalso
    unfold isSpace at hsp
    simp only [Bool.or_eq_true, decide_eq_true_eq] at hsp
    rcases hsp with (((((h' | h') | h') | h') | h') | h') <;> subst h' <;>
      exact absurd h (by decide)

theorem dropWhile_all_append {p : Char → Bool} (a b : List Char)
    (ha : a.all p = true) : (a ++ b).dropWhile p = b.dropWhile p := by
  induction a with
  | nil => rfl
  | cons c a' ih =>
    rw [List.all_cons, Bool.and_eq_true] at ha
    rw [List.cons_append, List.dropWhile_cons, if_pos ha.1]
    exact ih ha.2

theorem dropWhile_all_eq_nil {p : Char → Bool} (a : List Char)
    (ha : a.all p = true) : a.dropWhile p = [] := by
  have := dropWhile_all_append a [] ha
  simpa using this

/-- Stripping whitespace around a block whose first and last characters
are not whitespace yields exactly that block. -/
theorem pyStrip_sandwich (ws1 mid ws2 : List Char)
    (h1 : ws1.all isSpace = true) (h2 : ws2.all isSpace = true)
    (hh : ∀ c, mid.head? = some c → isSpace c = false)
    (hl : ∀ c, mid.getLast? = some c → isSpace c = false) :
    pyStrip (ws1 ++ mid ++ ws2) = mid := by
  unfold pyStrip
  cases hmid : mid with
  | nil =>
    subst hmid
    rw [List.append_nil, dropWhile_all_append ws1 ws2 h1, dropWhile_all_eq_nil ws2 h2]
    rfl
  | cons c t =>
    subst hmid
    have hc : isSpace c = false := hh c rfl
    have hstep1 : (ws1 ++ (c :: t) ++ ws2).dropWhile isSpace = (c :: t) ++ ws2 := by
      rw [List.append_assoc, dropWhile_all_append ws1 ((c :: t) ++ ws2) h1,
        List.cons_append, List.dropWhile_cons, if_neg (by rw [hc]; exact Bool.false_ne_true)]
    rw [hstep1, List.reverse_append,
      dropWhile_all_append ws2.reverse (c :: t).reverse (by rw [List.all_reverse]; exact h2)]
    obtain ⟨c', t', hrev⟩ : ∃ c' t', (c :: t).reverse = c' :: t' := by
      cases hr : (c :: t).reverse with
      | nil =>
        rw [List.reverse_eq_nil_iff] at hr
        simp at hr
      | cons x xs => exact ⟨x, xs, rfl⟩
    have hc' : isSpace c' = false := by
      apply hl
      rw [← List.head?_reverse, hrev]
      rfl
    rw [hrev, List.dropWhile_cons, if_neg (by rw [hc']; exact Bool.false_ne_true), ← hrev,
      List.reverse_reverse]

theorem mem_of_head?_eq {l : List Char} {a : Char} (h : l.head? = some a) :
    a ∈ l := by
  cases l with
  | nil => cases h
  | cons x xs =>
    simp [List.head?] at h
    rw [← h]
    exact List.mem_cons_self x xs

theorem lastNotId_of_eq {m : List Char} {d : Char} (he : m.getLast? = some d)
    (hd : isIdChar d = false) :
    ∀ c, m.getLast? = some c → isIdChar c = false := by
  intro c hc
  rw [he] at hc
  cases hc
  exact hd

/-! ## The canonical URL forms of the specification -/

namespace App

def watchHost : List Char := ("https://www.youtube.com/watch?").toList
def beHost : List Char := ("https://").toList
def ytHost : List Char := ("https://www.youtube.com/").toList

def watchUrl (id : List Char) : List Char := watchHost ++ pat1 ++ id
def beUrl (id : List Char) : List Char := beHost ++ pat2 ++ id
def embedUrl (id : List Char) : List Char := ytHost ++ pat3 ++ id
def shortsUrl (id : List Char) : List Char := ytHost ++ pat4 ++ id

theorem isValidId_parts {id : List Char} (h : isValidId id = true) :
    id.length = 11 ∧ id.all isIdChar = true := by
  unfold isValidId at h
  rw [Bool.and_eq_true, beq_iff_eq] at h
  exact h

theorem takeId_full {id : List Char} (h : isValidId id = true) :
    takeId 11 id = some id := by
  obtain ⟨hlen, hall⟩ := isValidId_parts h
  have h1 : id.take 11 = id := by
    rw [← hlen]
    exact List.take_length id
  have h2 := takeId_of_valid 11 id (le_of_eq hlen.symm) (by rw [h1]; exact hall)
  rw [h1] at h2
  exact h2

theorem eq_ne_of_not_id {id : List Char} (hall : id.all isIdChar = true)
    {c : Char} (hc : isIdChar c = false) : c ∉ id :=
  not_mem_of_all_false hall hc

theorem searchPat_watch (id : List Char) (h : isValidId id = true) :
    searchPat pat1 (watchUrl id) = some id := by
  have hassoc : watchUrl id = watchHost ++ (pat1 ++ id) := by
    unfold watchUrl
    rw [List.append_assoc]
  rw [hassoc, searchPat_skip_clean pat1 watchHost id (by decide)]
  exact searchPat_found pat1 id id (by decide) (takeId_full h)

theorem extract_watch (id : List Char) (h : isValidId id = true) :
    extract_video_id (watchUrl id) = some id := by
  simp only [extract_video_id, searchPat_watch id h]

theorem no_eq_char (id : List Char) (hall : id.all isIdChar = true)
    (host extra : List Char) (hh : '=' ∉ host) (he : '=' ∉ extra) :
    searchPat pat1 (host ++ extra ++ id) = none := by
  apply searchPat_none_of_missing_char pat1 _ '=' (by decide)
  intro hmem
  rw [List.append_assoc, List.mem_append, List.mem_append] at hmem
  rcases hmem with h' | h' | h'
  · exact hh h'
  · exact he h'
  · exact eq_ne_of_not_id hall (by decide) h'

theorem extract_be (id : List Char) (h : isValidId id = true) :
    extract_video_id (beUrl id) = some id := by
  obtain ⟨-, hall⟩ := isValidId_parts h
  have h1 : searchPat pat1 (beUrl id) = none :=
    no_eq_char id hall beHost pat2 (by decide) (by decide)
  have h2 : searchPat pat2 (beUrl id) = some id := by
    have hassoc : beUrl id = beHost ++ (pat2 ++ id) := by
      unfold beUrl
      rw [List.append_assoc]
    rw [hassoc, searchPat_skip_clean pat2 beHost id (by decide)]
    exact searchPat_found pat2 id id (by decide) (takeId_full h)
  simp only [extract_video_id, h1, h2]

theorem extract_embed (id : List Char) (h : isValidId id = true) :
    extract_video_id (embedUrl id) = some id := by
  obtain ⟨-, hall⟩ := isValidId_parts h
  have h1 : searchPat pat1 (embedUrl id) = none :=
    no_eq_char id hall ytHost pat3 (by decide) (by decide)
  have h2 : searchPat pat2 (embedUrl id) = none := by
    have hassoc : embedUrl id = (ytHost ++ pat3) ++ id := by
      unfold embedUrl
      rw [List.append_assoc]
    rw [hassoc]
    exact searchPat_none_of_last_not_id pat2 (ytHost ++ pat3) id (by decide)
      (lastNotId_of_eq rfl (by decide)) hall (by decide)
  have h3 : searchPat pat3 (embedUrl id) = some id := by
    have hassoc : embedUrl id = ytHost ++ (pat3 ++ id) := by
      unfold embedUrl
      rw [List.append_assoc]
    rw [hassoc, searchPat_skip_clean pat3 ytHost id (by decide)]
    exact searchPat_found pat3 id id (by decide) (takeId_full h)
  simp only [extract_video_id, h1, h2, h3]

theorem extract_shorts (id : List Char) (h : isValidId id = true) :
    extract_video_id (shortsUrl id) = some id := by
  obtain ⟨-, hall⟩ := isValidId_parts h
  have h1 : searchPat pat1 (shortsUrl id) = none :=
    no_eq_char id hall ytHost pat4 (by decide) (by decide)
  have hassoc : shortsUrl id = (ytHost ++ pat4) ++ id := by
    unfold shortsUrl
    rw [List.append_assoc]
  have h2 : searchPat pat2 (shortsUrl id) = none := by
    rw [hassoc]
    exact searchPat_none_of_last_not_id pat2 (ytHost ++ pat4) id (by decide)
      (lastNotId_of_eq rfl (by decide)) hall (by decide)
  have h3 : searchPat pat3 (shortsUrl id) = none := by
    rw [hassoc]
    exact searchPat_none_of_last_not_id pat3 (ytHost ++ pat4) id (by decide)
      (lastNotId_of_eq rfl (by decide)) hall (by decide)
  have h4 : searchPat pat4 (shortsUrl id) = some id := by
    have hassoc2 : shortsUrl id = ytHost ++ (pat4 ++ id) := by
      unfold shortsUrl
      rw [List.append_assoc]
    rw [hassoc2, searchPat_skip_clean pat4 ytHost id (by decide)]
    exact searchPat_found pat4 id id (by decide) (takeId_full h)
  simp only [extract_video_id, h1, h2, h3, h4]

theorem extract_bare (id ws1 ws2 : List Char) (h : isValidId id = true)
    (hws1 : ws1.all isSpace = true) (hws2 : ws2.all isSpace = true) :
    extract_video_id (ws1 ++ id ++ ws2) = some id := by
  obtain ⟨-, hall⟩ := isValidId_parts h
  have hmiss : ∀ c : Char, isSpace c = false → isIdChar c = false →
      c ∉ ws1 ++ id ++ ws2 := by
    intro c hsp hid hmem
    rw [List.append_assoc, List.mem_append, List.mem_append] at hmem
    rcases hmem with h' | h' | h'
    · exact not_mem_of_all_false hws1 hsp h'
    · exact eq_ne_of_not_id hall hid h'
    · exact not_mem_of_all_false hws2 hsp h'
  have h1 : searchPat pat1 (ws1 ++ id ++ ws2) = none :=
    searchPat_none_of_missing_char pat1 _ '=' (by decide)
      (hmiss '=' (by decide) (by decide))
  have h2 : searchPat pat2 (ws1 ++ id ++ ws2) = none :=
    searchPat_none_of_missing_char pat2 _ '.' (by decide)
      (hmiss '.' (by decide) (by decide))
  have h3 : searchPat pat3 (ws1 ++ id ++ ws2) = none :=
    searchPat_none_of_missing_char pat3 _ '/' (by decide)
      (hmiss '/' (by decide) (by decide))
  have h4 : searchPat pat4 (ws1 ++ id ++ ws2) = none :=
    searchPat_none_of_missing_char pat4 _ '/' (by decide)
      (hmiss '/' (by decide) (by decide))
  have hstrip : pyStrip (ws1 ++ id ++ ws2) = id := by
    apply pyStrip_sandwich ws1 id ws2 hws1 hws2
    · intro c hc
      exact isSpace_eq_false_of_isIdChar (List.all_eq_true.mp hall c (mem_of_head?_eq hc))
    · intro c hc
      exact isSpace_eq_false_of_isIdChar (List.all_eq_true.mp hall c (mem_of_getLast?_eq hc))
  simp only [extract_video_id, h1, h2, h3, h4, hstrip, h, if_true]

end App

/-- C1: for every valid 11-character identifier ID, each accepted URL
form (`watch?v=ID`, `youtu.be/ID`, `embed/ID`, `shorts/ID`, and the bare
ID possibly surrounded by whitespace) makes `extract_video_id` return
exactly ID; and an input containing none of the four markers whose
trimmed form is not a valid 11-character token yields `none`. -/
theorem C1_extract_video_id_spec :
    (∀ id : List Char, App.isValidId id = true →
      App.extract_video_id (App.watchUrl id) = some id ∧
      App.extract_video_id (App.beUrl id) = some id ∧
      App.extract_video_id (App.embedUrl id) = some id ∧
      App.extract_video_id (App.shortsUrl id) = some id ∧
      ∀ ws1 ws2 : List Char, ws1.all isSpace = true → ws2.all isSpace = true →
        App.extract_video_id (ws1 ++ id ++ ws2) = some id) ∧
    (∀ url : List Char,
      containsSub App.pat1 url = false → containsSub App.pat2 url = false →
      containsSub App.pat3 url = false → containsSub App.pat4 url = false →
      App.isValidId (pyStrip url) = false →
      App.extract_video_id url = none) := by
  constructor
  · intro id h
    exact ⟨App.extract_watch id h, App.extract_be id h, App.extract_embed id h,
      App.extract_shorts id h,
      fun ws1 ws2 hw1 hw2 => App.extract_bare id ws1 ws2 h hw1 hw2⟩
  · intro url h1 h2 h3 h4 h5
    simp only [App.extract_video_id, searchPat_none_of_not_sub _ _ h1,
      searchPat_none_of_not_sub _ _ h2, searchPat_none_of_not_sub _ _ h3,
      searchPat_none_of_not_sub _ _ h4, h5]
    simp

/-- Witness for C1 at the specification's own example identifier and at
the non-URL input `"not a url"`. -/
theorem C1_witness :
    App.isValidId (("dQw4w9WgXcQ").toList) = true ∧
    App.extract_video_id (App.watchUrl (("dQw4w9WgXcQ").toList)) =
      some (("dQw4w9WgXcQ").toList) ∧
    App.extract_video_id ([' '] ++ ("dQw4w9WgXcQ").toList ++ ['\n']) =
      some (("dQw4w9WgXcQ").toList) ∧
    App.extract_video_id (("not a url").toList) = none := by
  refine ⟨by decide, (C1_extract_video_id_spec.1 (("dQw4w9WgXcQ").toList) (by decide)).1,
    ?_, ?_⟩
  · exact (C1_extract_video_id_spec.1 (("dQw4w9WgXcQ").toList) (by decide)).2.2.2.2
      [' '] ['\n'] (by decide) (by decide)
  · exact C1_extract_video_id_spec.2 (("not a url").toList)
      (by decide) (by decide) (by decide) (by decide) (by decide)

/-- C9: when a marker such as `v=` is followed by a run of 12 or more
identifier-alphabet characters, `extract_video_id` returns the first 11
characters of that run (a truncated identifier) instead of failing. -/
theorem C9_marker_run_truncated (run : List Char) (h12 : 12 ≤ run.length)
    (hall : run.all isIdChar = true) :
    App.extract_video_id (App.pat1 ++ run) = some (run.take 11) ∧
    run.take 11 ≠ run := by
  have htake : takeId 11 run = some (run.take 11) := by
    apply takeId_of_valid 11 run (by omega)
    rw [List.all_eq_true]
    intro x hx
    exact List.all_eq_true.mp hall x (List.mem_of_mem_take hx)
  have hfound : searchPat App.pat1 (App.pat1 ++ run) = some (run.take 11) :=
    searchPat_found App.pat1 run (run.take 11) (by decide) htake
  constructor
  · simp only [App.extract_video_id, hfound]
  · intro heq
    have hlen := congrArg List.length heq
    rw [List.length_take] at hlen
    omega

/-- Witness for C9 on a 12-character run after `v=`. -/
theorem C9_witness :
    12 ≤ (("dQw4w9WgXcQ1").toList).length ∧
    (App.extract_video_id (App.pat1 ++ ("dQw4w9WgXcQ1").toList) =
        some ((("dQw4w9WgXcQ1").toList).take 11) ∧
      (("dQw4w9WgXcQ1").toList).take 11 ≠ ("dQw4w9WgXcQ1").toList) :=
  ⟨by decide, C9_marker_run_truncated (("dQw4w9WgXcQ1").toList) (by decide) (by decide)⟩

/-! ## `get_transcript` of `app.py`: provider modelled as an environment -/

namespace App

/-- Outcome of one provider fetch: a list of snippet texts, or a raised
exception. -/
inductive FetchOutcome where
  | ok (snippets : List (List Char))
  | err
deriving DecidableEq

/-- One caption track as exposed by the provider's track list. -/
structure Track where
  is_generated : Bool
  is_translatable : Bool
  translatedFetch : FetchOutcome
  nativeFetch : FetchOutcome
deriving DecidableEq

/-- Outcome of `ytt.list(video_id)`. -/
inductive ListOutcome where
  | ok (tracks : List Track)
  | exc (msg : List Char)
deriving DecidableEq

/-- The provider's responses for one request. -/
structure YttEnv where
  fetchDirect : FetchOutcome
  listTracks : ListOutcome
deriving DecidableEq

/-- `" ".join(t.text for t in fetched)`. -/
def joinSnips (snips : List (List Char)) : List Char := joinWith ' ' snips

/-- The fetch the loop body performs on a track: translate to English
when the track is translatable, else fetch natively. -/
def fetchOf (t : Track) : FetchOutcome :=
  if t.is_translatable then t.translatedFetch else t.nativeFetch

/-- The `for transcript in transcript_list` loop: first track whose
fetch succeeds with non-whitespace text wins; failures continue. -/
def tryTracks : List Track → Option (List Char)
  | [] => none
  | t :: ts =>
    match fetchOf t with
    | .err => tryTracks ts
    | .ok snips =>
      if (pyStrip (joinSnips snips)).isEmpty then tryTracks ts
      else some (joinSnips snips)

def noUsableMsg : List Char :=
  ("No usable transcript found. Try a different video.").toList

def couldNotFetchMsg (e : List Char) : List Char :=
  ("Could not fetch transcript: ").toList ++ e

/-- Try 2 of `get_transcript`: list all tracks and translate. -/
def afterDirect (env : YttEnv) : Except (List Char) (List Char) :=
  match env.listTracks with
  | .exc msg => .error (couldNotFetchMsg msg)
  | .ok tracks =>
    match tryTracks tracks with
    | some text => .ok text
    | none => .error noUsableMsg

/-- `get_transcript` from `app.py`.  Try 1 fetches English directly and
returns its text when non-whitespace; otherwise (or on exception) the
track-list fallback runs. -/
def get_transcript (env : YttEnv) : Except (List Char) (List Char) :=
  match env.fetchDirect with
  | .ok snips =>
    if (pyStrip (joinSnips snips)).isEmpty then afterDirect env
    else .ok (joinSnips snips)
  | .err => afterDirect env

theorem tryTracks_strip_ne (ts : List Track) (text : List Char)
    (h : tryTracks ts = some text) : (pyStrip text).isEmpty = false := by
  induction ts with
  | nil => cases h
  | cons t ts ih =>
    simp only [tryTracks] at h
    cases hf : fetchOf t with
    | err =>
      simp only [hf] at h
      exact ih h
    | ok snips =>
      simp only [hf] at h
      cases he : (pyStrip (joinSnips snips)).isEmpty with
      | true =>
        simp only [he, if_true] at h
        exact ih h
      | false =>
        simp only [he, Bool.false_eq_true, if_false] at h
        cases h
        exact he

theorem afterDirect_ok_strip_ne (env : YttEnv) (text : List Char)
    (h : afterDirect env = .ok text) : (pyStrip text).isEmpty = false := by
  unfold afterDirect at h
  cases hl : env.listTracks with
  | exc msg =>
    simp only [hl] at h
    cases h
  | ok tracks =>
    simp only [hl] at h
    cases ht : tryTracks tracks with
    | none =>
      simp only [ht] at h
      cases h
    | some t2 =>
      simp only [ht, Except.ok.injEq] at h
      rw [← h]
      exact tryTracks_strip_ne tracks t2 ht

theorem get_transcript_ok_strip_ne (env : YttEnv) (text : List Char)
    (h : get_transcript env = .ok text) : (pyStrip text).isEmpty = false := by
  unfold get_transcript at h
  cases hd : env.fetchDirect with
  | err =>
    simp only [hd] at h
    exact afterDirect_ok_strip_ne env text h
  | ok snips =>
    simp only [hd] at h
    cases he : (pyStrip (joinSnips snips)).isEmpty with
    | true =>
      simp only [he, if_true] at h
      exact afterDirect_ok_strip_ne env text h
    | false =>
      simp only [he, Bool.false_eq_true, if_false, Except.ok.injEq] at h
      rw [← h]
      exact he

end App

namespace App

/-- Rewrite the generated/manual flag of a track; everything the code
reads is untouched. -/
def setGenerated (b : Bool) (t : Track) : Track :=
  { t with is_generated := b }

def mapTracks (f : Track → Track) (env : YttEnv) : YttEnv :=
  { env with listTracks :=
      match env.listTracks with
      | .ok ts => .ok (ts.map f)
      | .exc m => .exc m }

theorem tryTracks_map_setGenerated (b : Bool) (ts : List Track) :
    tryTracks (List.map (setGenerated b) ts) = tryTracks ts := by
  induction ts with
  | nil => rfl
  | cons t ts ih =>
    simp only [List.map_cons, tryTracks]
    cases hf : fetchOf t with
    | err =>
      have h2 : fetchOf (setGenerated b t) = FetchOutcome.err := hf
      simp only [h2, hf]
      exact ih
    | ok snips =>
      have h2 : fetchOf (setGenerated b t) = FetchOutcome.ok snips := hf
      simp only [h2, hf]
      rw [ih]

theorem afterDirect_mapTracks (b : Bool) (env : YttEnv) :
    afterDirect (mapTracks (setGenerated b) env) = afterDirect env := by
  unfold afterDirect mapTracks
  cases hl : env.listTracks with
  | exc msg => simp only [hl]
  | ok tracks =>
    simp only [hl]
    rw [tryTracks_map_setGenerated b tracks]

theorem get_transcript_mapTracks (b : Bool) (env : YttEnv) :
    get_transcript (mapTracks (setGenerated b) env) = get_transcript env := by
  unfold get_transcript
  have hfd : (mapTracks (setGenerated b) env).fetchDirect = env.fetchDirect := rfl
  rw [hfd]
  cases hd : env.fetchDirect with
  | err =>
    simp only
    exact afterDirect_mapTracks b env
  | ok snips =>
    simp only
    rw [afterDirect_mapTracks b env]

/-- Tracks whose fetch raises, or fetches only whitespace, are the
ones the loop body skips with `continue`. -/
theorem tryTracks_skip (pre rest : List Track)
    (hpre : ∀ t' ∈ pre, ∀ snips, fetchOf t' = FetchOutcome.ok snips →
      (pyStrip (joinSnips snips)).isEmpty = true) :
    tryTracks (pre ++ rest) = tryTracks rest := by
  induction pre with
  | nil => rfl
  | cons t' pre ih =>
    have hprer : ∀ x ∈ pre, ∀ snips, fetchOf x = FetchOutcome.ok snips →
        (pyStrip (joinSnips snips)).isEmpty = true :=
      fun x hx snips hs => hpre x (List.mem_cons_of_mem t' hx) snips hs
    rw [List.cons_append]
    simp only [tryTracks]
    cases hf : fetchOf t' with
    | err =>
      simp only [hf]
      exact ih hprer
    | ok snips =>
      simp only [hf, hpre t' (List.mem_cons_self t' pre) snips hf, if_true]
      exact ih hprer

def autoTrack : Track :=
  ⟨true, true, .ok [("auto track text").toList], .err⟩

def manualTrack : Track :=
  ⟨false, true, .ok [("manual track text").toList], .err⟩

def c7Env : YttEnv := ⟨.err, .ok [autoTrack, manualTrack]⟩

/-- A track whose fetch raises both ways. -/
def badTrack : Track := ⟨true, false, .err, .err⟩

/-- A track whose fetch succeeds with whitespace-only text. -/
def wsTrack : Track := ⟨true, true, .ok [[' ']], .err⟩

/-- Two non-workable tracks listed before the workable ones. -/
def c7SkipEnv : YttEnv :=
  ⟨.err, .ok ([badTrack, wsTrack] ++ autoTrack :: [manualTrack])⟩

end App

/-- C7 as stated is false: with direct English retrieval unavailable, a
workable auto-generated track listed before a workable manually
authored track is the one returned — the manual track is not preferred. -/
theorem C7_counterexample :
    App.autoTrack.is_generated = true ∧
    App.manualTrack.is_generated = false ∧
    App.fetchOf App.manualTrack = App.FetchOutcome.ok [("manual track text").toList] ∧
    App.get_transcript App.c7Env = Except.ok (("auto track text").toList) ∧
    ("auto track text").toList ≠ ("manual track text").toList := by
  refine ⟨rfl, rfl, rfl, ?_, by decide⟩
  rfl

/-- C7 (amended): when direct English retrieval is unavailable,
`get_transcript` walks the caption tracks in provider order with no
preference for manually authored tracks: every leading track whose
fetch (translated to English when the track is translatable, native
otherwise, per `fetchOf`) fails or yields only whitespace is skipped,
the first track whose fetch yields non-whitespace text wins, and the
manual/generated flags are entirely irrelevant to the result. -/
theorem C7_no_manual_preference :
    (∀ (env : App.YttEnv) (pre : List App.Track) (t : App.Track)
        (ts : List App.Track) (snips : List (List Char)),
      env.fetchDirect = App.FetchOutcome.err →
      env.listTracks = App.ListOutcome.ok (pre ++ t :: ts) →
      (∀ t' ∈ pre, ∀ snips', App.fetchOf t' = App.FetchOutcome.ok snips' →
        (pyStrip (App.joinSnips snips')).isEmpty = true) →
      App.fetchOf t = App.FetchOutcome.ok snips →
      (pyStrip (App.joinSnips snips)).isEmpty = false →
      App.get_transcript env = Except.ok (App.joinSnips snips)) ∧
    (∀ (env : App.YttEnv) (b : Bool),
      App.get_transcript (App.mapTracks (App.setGenerated b) env) =
        App.get_transcript env) := by
  constructor
  · intro env pre t ts snips hdir hlist hpre hfetch hne
    unfold App.get_transcript
    simp only [hdir]
    unfold App.afterDirect
    simp only [hlist]
    rw [App.tryTracks_skip pre (t :: ts) hpre]
    simp only [App.tryTracks, hfetch, hne, Bool.false_eq_true, if_false]
  · intro env b
    exact App.get_transcript_mapTracks b env

/-- Witness for C7's amended statement: a raising track and a
whitespace-only track are skipped, the auto-generated track listed
before the manual one is returned. -/
theorem C7_witness :
    App.get_transcript App.c7SkipEnv =
      Except.ok (App.joinSnips [("auto track text").toList]) ∧
    App.get_transcript (App.mapTracks (App.setGenerated true) App.c7SkipEnv) =
      App.get_transcript App.c7SkipEnv :=
  ⟨C7_no_manual_preference.1 App.c7SkipEnv [App.badTrack, App.wsTrack]
      App.autoTrack [App.manualTrack] [("auto track text").toList] rfl rfl
      (by
        intro t' ht' snips hs
        rcases List.mem_cons.mp ht' with h | h
        · subst h
          rw [show App.fetchOf App.badTrack = App.FetchOutcome.err from rfl] at hs
          cases hs
        · rcases List.mem_cons.mp h with h2 | h2
          · subst h2
            rw [show App.fetchOf App.wsTrack = App.FetchOutcome.ok [[' ']]
              from rfl] at hs
            cases hs
            decide
          · exact absurd h2 (List.not_mem_nil t'))
      rfl (by decide),
    C7_no_manual_preference.2 App.c7SkipEnv true⟩

/-! ## The `/summarize` handler of `app.py` -/

namespace App

def fenceOpen : List Char := ("```json").toList
def fenceClose : List Char := ("```").toList

/-- The two `re.sub` calls on the model reply: remove a leading
literal open marker plus following whitespace, then a trailing close
marker plus preceding whitespace. -/
def stripFence (raw : List Char) : List Char :=
  let r1 := if fenceOpen.isPrefixOf raw then (raw.drop 7).dropWhile isSpace else raw
  if fenceClose.isPrefixOf r1.reverse then
    ((r1.reverse.drop 3).dropWhile isSpace).reverse
  else r1

/-- `raw = message.content[0].text.strip()` followed by the marker
stripping and `json.loads`, with the JSON parser abstracted as `J`. -/
def clientParse {σ : Type} (J : List Char → Option σ) (reply : List Char) :
    Option σ :=
  J (stripFence (pyStrip reply))

def userMsgIntro : List Char :=
  ("Summarize this YouTube video transcript:\n\n").toList

/-- The user-message content of the outbound completion request:
the fixed instruction plus `transcript[:12000]`. -/
def requestContent (transcript : List Char) : List Char :=
  userMsgIntro ++ transcript.take 12000

/-- `client.messages.create(...)` either returns a reply text or
raises. -/
inductive AiOutcome where
  | ok (text : List Char)
  | exc (msg : List Char)

/-- The JSON body of a handler response: either a single error message
or a parsed summary object. -/
inductive RespBody (σ : Type) where
  | errB (msg : List Char)
  | okB (s : σ)

def pleaseMsg : List Char := ("Please enter a YouTube URL.").toList
def invalidMsg : List Char := ("Invalid YouTube URL. Please check and try again.").toList
def formatMsg : List Char := ("AI returned unexpected format. Please try again.").toList
def aiErrMsg (e : List Char) : List Char := ("AI error: ").toList ++ e

/-- The `POST /summarize` handler.  `urlField` is the optional `url`
member of the JSON body (`data.get("url", "")`), `world` maps a video
identifier to the captions provider's behaviour, `ai` maps the
outbound request content to the completion provider's behaviour, and
`J` is the JSON parser for the summary shape.  Returns HTTP status and
body. -/
def summarize {σ : Type} (J : List Char → Option σ)
    (urlField : Option (List Char)) (world : List Char → YttEnv)
    (ai : List Char → AiOutcome) : Nat × RespBody σ :=
  let url := pyStrip (urlField.getD [])
  if url.isEmpty then (400, .errB pleaseMsg)
  else
    match extract_video_id url with
    | none => (400, .errB invalidMsg)
    | some vid =>
      match get_transcript (world vid) with
      | .error e => (400, .errB e)
      | .ok transcript =>
        match ai (requestContent transcript) with
        | .exc m => (500, .errB (aiErrMsg m))
        | .ok reply =>
          match clientParse J reply with
          | none => (500, .errB formatMsg)
          | some s => (200, .okB s)

theorem pyStrip_all_space (ws : List Char) (h : ws.all isSpace = true) :
    pyStrip ws = [] := by
  unfold pyStrip
  rw [dropWhile_all_eq_nil ws h]
  rfl

end App

theorem extract_some_nonempty {url vid : List Char}
    (h : App.extract_video_id url = some vid) : url.isEmpty = false := by
  cases url with
  | nil =>
    have hnone : App.extract_video_id [] = none := rfl
    rw [hnone] at h
    cases h
  | cons c t => rfl

/-- C2: the first failing step short-circuits the rest; input-layer and
transcript-layer failures answer 400 with the single error message,
summarization-layer failures answer 500, an effectively empty `url`
answers exactly "Please enter a YouTube URL.", and every response is
either one error message with status 400/500 or one full summary with
status 200 — never both. -/
theorem C2_handler_error_contract {σ : Type} (J : List Char → Option σ)
    (world : List Char → App.YttEnv) (ai : List Char → App.AiOutcome) :
    (∀ ws : List Char, ws.all isSpace = true →
      App.summarize J (some ws) world ai = (400, App.RespBody.errB App.pleaseMsg)) ∧
    (∀ url : List Char, (pyStrip url).isEmpty = false →
      App.extract_video_id (pyStrip url) = none →
      App.summarize J (some url) world ai = (400, App.RespBody.errB App.invalidMsg)) ∧
    (∀ url vid e, App.extract_video_id (pyStrip url) = some vid →
      App.get_transcript (world vid) = Except.error e →
      App.summarize J (some url) world ai = (400, App.RespBody.errB e)) ∧
    (∀ url vid t m, App.extract_video_id (pyStrip url) = some vid →
      App.get_transcript (world vid) = Except.ok t →
      ai (App.requestContent t) = App.AiOutcome.exc m →
      App.summarize J (some url) world ai = (500, App.RespBody.errB (App.aiErrMsg m))) ∧
    (∀ url vid t reply, App.extract_video_id (pyStrip url) = some vid →
      App.get_transcript (world vid) = Except.ok t →
      ai (App.requestContent t) = App.AiOutcome.ok reply →
      App.clientParse J reply = none →
      App.summarize J (some url) world ai = (500, App.RespBody.errB App.formatMsg)) ∧
    (∀ urlField : Option (List Char),
      (∃ msg, App.summarize J urlField world ai = (400, App.RespBody.errB msg)) ∨
      (∃ msg, App.summarize J urlField world ai = (500, App.RespBody.errB msg)) ∨
      (∃ s, App.summarize J urlField world ai = (200, App.RespBody.okB s))) := by
  refine ⟨?_, ?_, ?_, ?_, ?_, ?_⟩
  · intro ws hws
    simp [App.summarize, App.pyStrip_all_space ws hws]
  · intro url hne hvid
    simp [App.summarize, hne, hvid]
  · intro url vid e hvid htr
    have hne := extract_some_nonempty hvid
    simp [App.summarize, hne, hvid, htr]
  · intro url vid t m hvid htr hai
    have hne := extract_some_nonempty hvid
    simp [App.summarize, hne, hvid, htr, hai]
  · intro url vid t reply hvid htr hai hcp
    have hne := extract_some_nonempty hvid
    simp [App.summarize, hne, hvid, htr, hai, hcp]
  · intro urlField
    cases hemp : (pyStrip (urlField.getD [])).isEmpty with
    | true => exact Or.inl ⟨App.pleaseMsg, by simp [App.summarize, hemp]⟩
    | false =>
      cases hvid : App.extract_video_id (pyStrip (urlField.getD [])) with
      | none => exact Or.inl ⟨App.invalidMsg, by simp [App.summarize, hemp, hvid]⟩
      | some vid =>
        cases htr : App.get_transcript (world vid) with
        | error e => exact Or.inl ⟨e, by simp [App.summarize, hemp, hvid, htr]⟩
        | ok t =>
          cases hai : ai (App.requestContent t) with
          | exc m =>
            exact Or.inr (Or.inl ⟨App.aiErrMsg m,
              by simp [App.summarize, hemp, hvid, htr, hai]⟩)
          | ok reply =>
            cases hcp : App.clientParse J reply with
            | none =>
              exact Or.inr (Or.inl ⟨App.formatMsg,
                by simp [App.summarize, hemp, hvid, htr, hai, hcp]⟩)
            | some s =>
              exact Or.inr (Or.inr ⟨s,
                by simp [App.summarize, hemp, hvid, htr, hai, hcp]⟩)

/-- Witness for C2 at the empty url string. -/
theorem C2_witness :
    ([] : List Char).all isSpace = true ∧
    App.summarize (fun _ => (none : Option Unit)) (some [])
        (fun _ => App.c7Env) (fun _ => App.AiOutcome.exc []) =
      (400, App.RespBody.errB App.pleaseMsg) :=
  ⟨rfl, (C2_handler_error_contract (fun _ => (none : Option Unit))
      (fun _ => App.c7Env) (fun _ => App.AiOutcome.exc [])).1 [] rfl⟩

/-- C10: a JSON body lacking the `url` field behaves exactly like an
empty url string: the missing field defaults to the empty string and
the handler answers 400 with "Please enter a YouTube URL.". -/
theorem C10_missing_url_defaults_empty {σ : Type} (J : List Char → Option σ)
    (world : List Char → App.YttEnv) (ai : List Char → App.AiOutcome) :
    App.summarize J none world ai = App.summarize J (some []) world ai ∧
    App.summarize J none world ai = (400, App.RespBody.errB App.pleaseMsg) :=
  ⟨rfl, rfl⟩

/-- C4: the transcript part of the outbound completion request is
exactly the first min(length, 12000) characters of the transcript;
shorter transcripts are embedded whole, longer ones are cut at 12000
characters and the remainder is dropped. -/
theorem C4_request_truncation (t : List Char) :
    App.requestContent t = App.userMsgIntro ++ t.take (min 12000 t.length) ∧
    (t.length ≤ 12000 → App.requestContent t = App.userMsgIntro ++ t) ∧
    (12000 < t.length →
      (App.requestContent t).length = App.userMsgIntro.length + 12000) := by
  refine ⟨?_, ?_, ?_⟩
  · unfold App.requestContent
    congr 1
    rcases Nat.le_total 12000 t.length with h | h
    · rw [Nat.min_eq_left h]
    · rw [Nat.min_eq_right h, List.take_of_length_le h, List.take_length]
  · intro h
    unfold App.requestContent
    rw [List.take_of_length_le h]
  · intro h
    unfold App.requestContent
    rw [List.length_append, List.length_take]
    omega

/-- Witness for C4 on a 12001-character transcript. -/
theorem C4_witness :
    12000 < (List.replicate 12001 'a').length ∧
    (App.requestContent (List.replicate 12001 'a')).length =
      App.userMsgIntro.length + 12000 :=
  ⟨by rw [List.length_replicate]; omega,
    (C4_request_truncation (List.replicate 12001 'a')).2.2
      (by rw [List.length_replicate]; omega)⟩

theorem isPrefixOf_false_of_head_ne (a : Char) (as : List Char) (b : Char)
    (bs : List Char) (hne : a ≠ b) : (a :: as).isPrefixOf (b :: bs) = false := by
  rw [Bool.eq_false_iff]
  intro h
  obtain ⟨t, ht⟩ := isPrefixOf_eq_true_iff.mp h
  rw [List.cons_append] at ht
  injection ht with h1 h2
  exact hne h1

theorem inner_getLast (mid : List Char) :
    ('{' :: (mid ++ ['}'])).getLast? = some '}' := by
  rw [show ('{' :: (mid ++ ['}'])) = ['{'] ++ (mid ++ ['}']) from rfl,
    List.getLast?_append_of_ne_nil _ (by simp), List.getLast?_append_of_ne_nil _ (by simp)]
  rfl

theorem stripFence_wrapped (w1 mid w2 : List Char)
    (hw1 : w1.all isSpace = true) (hw2 : w2.all isSpace = true) :
    App.stripFence
        (App.fenceOpen ++ w1 ++ ('{' :: (mid ++ ['}'])) ++ w2 ++ App.fenceClose) =
      '{' :: (mid ++ ['}']) := by
  have hassoc : App.fenceOpen ++ w1 ++ ('{' :: (mid ++ ['}'])) ++ w2 ++ App.fenceClose =
      App.fenceOpen ++ (w1 ++ (('{' :: (mid ++ ['}'])) ++ (w2 ++ App.fenceClose))) := by
    simp [List.append_assoc]
  have hpre : App.fenceOpen.isPrefixOf
      (App.fenceOpen ++ w1 ++ ('{' :: (mid ++ ['}'])) ++ w2 ++ App.fenceClose) = true := by
    rw [hassoc]
    exact isPrefixOf_eq_true_iff.mpr (List.prefix_append _ _)
  have hdrop7 : (App.fenceOpen ++ w1 ++ ('{' :: (mid ++ ['}'])) ++ w2 ++
      App.fenceClose).drop 7 = w1 ++ (('{' :: (mid ++ ['}'])) ++ (w2 ++ App.fenceClose)) := by
    rw [hassoc, show (7 : Nat) = App.fenceOpen.length from rfl, List.drop_left]
  have hdw : (w1 ++ (('{' :: (mid ++ ['}'])) ++ (w2 ++ App.fenceClose))).dropWhile isSpace =
      ('{' :: (mid ++ ['}'])) ++ (w2 ++ App.fenceClose) := by
    rw [dropWhile_all_append w1 _ hw1, List.cons_append, List.dropWhile_cons,
      if_neg (by rw [show isSpace '{' = false from rfl]; exact Bool.false_ne_true)]
  have hrev : ((('{' :: (mid ++ ['}'])) ++ (w2 ++ App.fenceClose)).reverse) =
      App.fenceClose ++ (w2.reverse ++ ('{' :: (mid ++ ['}'])).reverse) := by
    rw [List.reverse_append, List.reverse_append,
      show App.fenceClose.reverse = App.fenceClose from rfl, List.append_assoc]
  have hpre2 : App.fenceClose.isPrefixOf
      ((('{' :: (mid ++ ['}'])) ++ (w2 ++ App.fenceClose)).reverse) = true := by
    rw [hrev]
    exact isPrefixOf_eq_true_iff.mpr (List.prefix_append _ _)
  have hdrop3 : ((('{' :: (mid ++ ['}'])) ++ (w2 ++ App.fenceClose)).reverse).drop 3 =
      w2.reverse ++ ('{' :: (mid ++ ['}'])).reverse := by
    rw [hrev, show (3 : Nat) = App.fenceClose.length from rfl, List.drop_left]
  have hinnerrev : ('{' :: (mid ++ ['}'])).reverse = '}' :: (mid.reverse ++ ['{']) := by
    simp
  have hdw2 : (w2.reverse ++ ('{' :: (mid ++ ['}'])).reverse).dropWhile isSpace =
      ('{' :: (mid ++ ['}'])).reverse := by
    rw [dropWhile_all_append w2.reverse _ (by rw [List.all_reverse]; exact hw2),
      hinnerrev, List.dropWhile_cons,
      if_neg (by rw [show isSpace '}' = false from rfl]; exact Bool.false_ne_true)]
  simp only [App.stripFence, hpre, if_true, hdrop7, hdw, hpre2, hdrop3, hdw2,
    List.reverse_reverse]

theorem stripFence_plain (mid : List Char) :
    App.stripFence ('{' :: (mid ++ ['}'])) = '{' :: (mid ++ ['}']) := by
  have h1 : App.fenceOpen.isPrefixOf ('{' :: (mid ++ ['}'])) = false := by
    rw [show App.fenceOpen = '`' :: ("``json").toList from rfl]
    exact isPrefixOf_false_of_head_ne '`' _ '{' _ (by decide)
  have hinnerrev : ('{' :: (mid ++ ['}'])).reverse = '}' :: (mid.reverse ++ ['{']) := by
    simp
  have h2 : App.fenceClose.isPrefixOf (('{' :: (mid ++ ['}'])).reverse) = false := by
    rw [hinnerrev, show App.fenceClose = '`' :: ("``").toList from rfl]
    exact isPrefixOf_false_of_head_ne '`' _ '}' _ (by decide)
  simp only [App.stripFence, h1, Bool.false_eq_true, if_false, h2]

/-- C5: a valid JSON object reply wrapped in a fenced code block
(leading three-backtick-json marker, trailing three-backtick marker,
with any whitespace inside or around the fence) is stripped down to the
inner object and parsed exactly as the unwrapped reply would be. -/
theorem C5_fenced_reply_parsed {σ : Type} (J : List Char → Option σ)
    (mid w1 w2 o1 o2 : List Char)
    (hw1 : w1.all isSpace = true) (hw2 : w2.all isSpace = true)
    (ho1 : o1.all isSpace = true) (ho2 : o2.all isSpace = true) :
    App.clientParse J
        (o1 ++ (App.fenceOpen ++ w1 ++ ('{' :: (mid ++ ['}'])) ++ w2 ++ App.fenceClose) ++ o2) =
      J ('{' :: (mid ++ ['}'])) ∧
    App.clientParse J ('{' :: (mid ++ ['}'])) = J ('{' :: (mid ++ ['}'])) := by
  constructor
  · have hh : ∀ c, (App.fenceOpen ++ w1 ++ ('{' :: (mid ++ ['}'])) ++ w2 ++
        App.fenceClose).head? = some c → isSpace c = false := by
      intro c hc
      have hassoc : App.fenceOpen ++ w1 ++ ('{' :: (mid ++ ['}'])) ++ w2 ++ App.fenceClose =
          App.fenceOpen ++ (w1 ++ (('{' :: (mid ++ ['}'])) ++ (w2 ++ App.fenceClose))) := by
        simp [List.append_assoc]
      rw [hassoc, List.head?_append_of_ne_nil App.fenceOpen (by decide),
        show App.fenceOpen.head? = some '`' from rfl] at hc
      cases hc
      rfl
    have hl : ∀ c, (App.fenceOpen ++ w1 ++ ('{' :: (mid ++ ['}'])) ++ w2 ++
        App.fenceClose).getLast? = some c → isSpace c = false := by
      intro c hc
      rw [List.getLast?_append_of_ne_nil _ (by decide),
        show App.fenceClose.getLast? = some '`' from rfl] at hc
      cases hc
      rfl
    have hps := pyStrip_sandwich o1
      (App.fenceOpen ++ w1 ++ ('{' :: (mid ++ ['}'])) ++ w2 ++ App.fenceClose) o2 ho1 ho2 hh hl
    unfold App.clientParse
    rw [hps, stripFence_wrapped w1 mid w2 hw1 hw2]
  · have hh : ∀ c, ('{' :: (mid ++ ['}'])).head? = some c → isSpace c = false := by
      intro c hc
      rw [show ('{' :: (mid ++ ['}'])).head? = some '{' from rfl] at hc
      cases hc
      rfl
    have hl : ∀ c, ('{' :: (mid ++ ['}'])).getLast? = some c → isSpace c = false := by
      intro c hc
      rw [inner_getLast mid] at hc
      cases hc
      rfl
    have hps := pyStrip_sandwich [] ('{' :: (mid ++ ['}'])) [] rfl rfl hh hl
    unfold App.clientParse
    rw [show ([] : List Char) ++ ('{' :: (mid ++ ['}'])) ++ [] = '{' :: (mid ++ ['}']) by simp] at hps
    rw [hps, stripFence_plain mid]

/-- Witness for C5 on the concrete wrapped reply. -/
theorem C5_witness :
    App.clientParse (fun l => some l)
        ([] ++ (App.fenceOpen ++ [' '] ++ ('{' :: (("\"tldr\":1").toList ++ ['}'])) ++
          ['\n'] ++ App.fenceClose) ++ [' ']) =
      some ('{' :: (("\"tldr\":1").toList ++ ['}'])) ∧
    App.clientParse (fun l => some l) ('{' :: (("\"tldr\":1").toList ++ ['}'])) =
      some ('{' :: (("\"tldr\":1").toList ++ ['}'])) := by
  have h := C5_fenced_reply_parsed (fun l => some l) (("\"tldr\":1").toList)
    [' '] ['\n'] [] [' '] (by decide) (by decide) (by decide) (by decide)
  exact h

/-! ## The yt-dlp variant (`app (2).py`): subtitle normalizer -/

namespace App2

/-- Position after a tag starting right here: the regex `<[^>]+>`
needs a non-empty run of non-`>` characters followed by `>`. -/
def tagEnd (rest : List Char) : Option Nat :=
  let inner := rest.takeWhile (fun x => x != '>')
  if inner.length = 0 then none
  else if inner.length < rest.length then some (inner.length + 1) else none

/-- `re.sub(r'<[^>]+>', '', line)`, with a character-count fuel: every
step consumes at least one character, so fuel `s.length` always
suffices (see `removeTagsF_fuel`). -/
def removeTagsF : Nat → List Char → List Char
  | 0, s => s
  | _ + 1, [] => []
  | f + 1, c :: rest =>
    if c = '<' then
      match tagEnd rest with
      | some k => removeTagsF f (rest.drop k)
      | none => c :: removeTagsF f rest
    else c :: removeTagsF f rest

def removeTags (s : List Char) : List Char := removeTagsF s.length s

def hdrWEBVTT : List Char := ("WEBVTT").toList
def hdrKind : List Char := ("Kind:").toList
def hdrLanguage : List Char := ("Language:").toList
def arrowSub : List Char := ("-->").toList

/-- The line loop of `parse_vtt`, with `acc` the kept lines in reverse
order (its head is `text_lines[-1]`). -/
def processLines : List (List Char) → List (List Char) → List (List Char)
  | [], acc => acc.reverse
  | l :: ls, acc =>
    let line := pyStrip l
    if line.isEmpty then processLines ls acc
    else if hdrWEBVTT.isPrefixOf line || hdrKind.isPrefixOf line ||
        hdrLanguage.isPrefixOf line then processLines ls acc
    else if containsSub arrowSub line then processLines ls acc
    else if line.all Char.isDigit then processLines ls acc
    else
      let line2 := pyStrip (removeTags line)
      if line2.isEmpty then processLines ls acc
      else
        match acc with
        | prev :: _ =>
          if line2 = prev then processLines ls acc
          else processLines ls (line2 :: acc)
        | [] => processLines ls (line2 :: acc)

/-- `parse_vtt` from the yt-dlp variant: split into lines, filter and
clean them, join with single spaces. -/
def parse_vtt (content : List Char) : List Char :=
  joinWith ' ' (processLines (splitOnNl content) [])

theorem removeTagsF_fuel (f g : Nat) (s : List Char)
    (hf : s.length ≤ f) (hg : s.length ≤ g) :
    removeTagsF f s = removeTagsF g s := by
  induction f generalizing g s with
  | zero =>
    have hs : s = [] := List.length_eq_zero.mp (Nat.le_zero.mp hf)
    subst hs
    cases g <;> rfl
  | succ f ih =>
    cases s with
    | nil => cases g <;> rfl
    | cons c rest =>
      rw [List.length_cons] at hf hg
      cases g with
      | zero => omega
      | succ g =>
        simp only [removeTagsF]
        by_cases hc : c = '<'
        · simp only [hc, if_true]
          cases hk : tagEnd rest with
          | some k =>
            simp only
            exact ih g (rest.drop k)
              (by rw [List.length_drop]; omega) (by rw [List.length_drop]; omega)
          | none =>
            simp only
            rw [ih g rest (by omega) (by omega)]
        · simp only [hc, if_false]
          rw [ih g rest (by omega) (by omega)]

theorem mem_removeTagsF (f : Nat) (s : List Char) (c : Char)
    (h : c ∈ removeTagsF f s) : c ∈ s := by
  induction f generalizing s with
  | zero => exact h
  | succ f ih =>
    cases s with
    | nil => exact h
    | cons a rest =>
      simp only [removeTagsF] at h
      by_cases ha : a = '<'
      · rw [if_pos ha] at h
        cases hk : tagEnd rest with
        | some k =>
          rw [hk] at h
          simp only at h
          have h2 := ih (rest.drop k) h
          exact List.mem_cons_of_mem a (List.mem_of_mem_drop h2)
        | none =>
          rw [hk] at h
          simp only [List.mem_cons] at h
          rcases h with h | h
          · exact h ▸ List.mem_cons_self a rest
          · exact List.mem_cons_of_mem a (ih rest h)
      · rw [if_neg ha] at h
        simp only [List.mem_cons] at h
        rcases h with h | h
        · exact h ▸ List.mem_cons_self a rest
        · exact List.mem_cons_of_mem a (ih rest h)

theorem mem_removeTags (s : List Char) (c : Char) (h : c ∈ removeTags s) :
    c ∈ s :=
  mem_removeTagsF s.length s c h

theorem removeTagsF_no_lt (f : Nat) (s : List Char) (h : '<' ∉ s) :
    removeTagsF f s = s := by
  induction f generalizing s with
  | zero => rfl
  | succ f ih =>
    cases s with
    | nil => rfl
    | cons a rest =>
      have ha : a ≠ '<' := by
        intro he
        exact h (he ▸ List.mem_cons_self a rest)
      simp only [removeTagsF, if_neg (by exact fun he => ha he)]
      rw [ih rest (fun hm => h (List.mem_cons_of_mem a hm))]

theorem removeTags_no_lt (s : List Char) (h : '<' ∉ s) : removeTags s = s :=
  removeTagsF_no_lt s.length s h

end App2

/-! ## The yt-dlp variant: `get_transcript` -/

namespace App2

/-- The language maps of the `info` dict (only the key lists matter). -/
structure Info where
  subtitles : List (List Char)
  automatic_captions : List (List Char)
deriving DecidableEq

/-- Outcome of the first `ydl.extract_info` call together with the
`.vtt` files found next to it (their contents, in glob order). -/
inductive Call1Result where
  | ok (info : Info) (vtts : List (List Char))
  | dlErr (msg : List Char)
  | exc (msg : List Char)
deriving DecidableEq

/-- Outcome of the retry call with the first available language. -/
inductive Call2Result where
  | ok (vtts2 : List (List Char))
  | dlErr (msg : List Char)
  | exc (msg : List Char)
deriving DecidableEq

structure YdlEnv where
  call1 : Call1Result
  call2 : Call2Result
deriving DecidableEq

/-- Python `s.lower()` (ASCII model). -/
def pyLower (s : List Char) : List Char := s.map Char.toLower

def noSubsMsg : List Char :=
  ("This video has no subtitles or captions available.").toList
def disabledMsg : List Char :=
  ("Could not download subtitles. The video may have captions disabled.").toList
def privateMsg : List Char := ("This video is private.").toList
def unavailableMsg : List Char := ("This video is unavailable.").toList
def couldNotAccessMsg (e : List Char) : List Char :=
  ("Could not access video: ").toList ++ e
def emptyParseMsg : List Char := ("Transcript was empty after parsing.").toList
def unexpectedMsg (e : List Char) : List Char :=
  ("Unexpected error: ").toList ++ e

/-- The `except yt_dlp.utils.DownloadError` handler: string-match the
message, lowercased. -/
def classifyDlErr (msg : List Char) : List Char :=
  if containsSub (("private").toList) (pyLower msg) then privateMsg
  else if containsSub (("unavailable").toList) (pyLower msg) then unavailableMsg
  else couldNotAccessMsg msg

/-- Read the first subtitle file, normalize it, and fail when the text
is empty after parsing. -/
def parseBranch (content : List Char) : Except (List Char) (List Char) :=
  let transcript := parse_vtt content
  if (pyStrip transcript).isEmpty then .error emptyParseMsg
  else .ok transcript

/-- `get_transcript` from the yt-dlp variant. -/
def get_transcript (env : YdlEnv) : Except (List Char) (List Char) :=
  match env.call1 with
  | .dlErr msg => .error (classifyDlErr msg)
  | .exc msg => .error (unexpectedMsg msg)
  | .ok info vtts =>
    match vtts with
    | [] =>
      if (info.subtitles ++ info.automatic_captions).isEmpty then
        .error noSubsMsg
      else
        match env.call2 with
        | .dlErr msg => .error (classifyDlErr msg)
        | .exc msg => .error (unexpectedMsg msg)
        | .ok vtts2 =>
          match vtts2 with
          | [] => .error disabledMsg
          | v :: _ => parseBranch v
    | v :: _ => parseBranch v

end App2

/-- C6: the yt-dlp retriever maps the distinct provider conditions —
no caption tracks at all, failed subtitle download (captions likely
disabled), private video, unavailable video — to specific constant
failure reasons that are pairwise distinct; the "disabled" reason
mentions disabled and differs from the "private" one. -/
theorem C6_distinct_failure_reasons :
    (∀ (env : App2.YdlEnv) (info : App2.Info),
      env.call1 = App2.Call1Result.ok info [] →
      (info.subtitles ++ info.automatic_captions).isEmpty = true →
      App2.get_transcript env = Except.error App2.noSubsMsg) ∧
    (∀ (env : App2.YdlEnv) (info : App2.Info),
      env.call1 = App2.Call1Result.ok info [] →
      (info.subtitles ++ info.automatic_captions).isEmpty = false →
      env.call2 = App2.Call2Result.ok [] →
      App2.get_transcript env = Except.error App2.disabledMsg) ∧
    (∀ (env : App2.YdlEnv) (msg : List Char),
      env.call1 = App2.Call1Result.dlErr msg →
      containsSub (("private").toList) (App2.pyLower msg) = true →
      App2.get_transcript env = Except.error App2.privateMsg) ∧
    (∀ (env : App2.YdlEnv) (msg : List Char),
      env.call1 = App2.Call1Result.dlErr msg →
      containsSub (("private").toList) (App2.pyLower msg) = false →
      containsSub (("unavailable").toList) (App2.pyLower msg) = true →
      App2.get_transcript env = Except.error App2.unavailableMsg) ∧
    (containsSub (("disabled").toList) App2.disabledMsg = true ∧
      containsSub (("private").toList) App2.privateMsg = true ∧
      containsSub (("unavailable").toList) App2.unavailableMsg = true ∧
      App2.disabledMsg ≠ App2.privateMsg ∧
      App2.disabledMsg ≠ App2.unavailableMsg ∧
      App2.disabledMsg ≠ App2.noSubsMsg ∧
      App2.privateMsg ≠ App2.unavailableMsg ∧
      App2.privateMsg ≠ App2.noSubsMsg ∧
      App2.unavailableMsg ≠ App2.noSubsMsg) := by
  refine ⟨?_, ?_, ?_, ?_, by decide⟩
  · intro env info h1 h2
    simp [App2.get_transcript, h1, h2]
  · intro env info h1 h2 h3
    simp [App2.get_transcript, h1, h2, h3]
  · intro env msg h1 h2
    simp at h2
    simp [App2.get_transcript, App2.classifyDlErr, h1, h2]
  · intro env msg h1 h2 h3
    simp at h2 h3
    simp [App2.get_transcript, App2.classifyDlErr, h1, h2, h3]

/-- Witness for C6 on four concrete environments. -/
theorem C6_witness :
    App2.get_transcript ⟨App2.Call1Result.ok ⟨[], []⟩ [], App2.Call2Result.ok []⟩ =
      Except.error App2.noSubsMsg ∧
    App2.get_transcript
        ⟨App2.Call1Result.ok ⟨[("en").toList], []⟩ [], App2.Call2Result.ok []⟩ =
      Except.error App2.disabledMsg ∧
    App2.get_transcript
        ⟨App2.Call1Result.dlErr (("Video is Private!").toList), App2.Call2Result.ok []⟩ =
      Except.error App2.privateMsg ∧
    App2.get_transcript
        ⟨App2.Call1Result.dlErr (("Video unavailable").toList), App2.Call2Result.ok []⟩ =
      Except.error App2.unavailableMsg := by
  obtain ⟨p1, p2, p3, p4, -⟩ := C6_distinct_failure_reasons
  exact ⟨p1 _ ⟨[], []⟩ rfl (by decide),
    p2 _ ⟨[("en").toList], []⟩ rfl (by decide) rfl,
    p3 _ (("Video is Private!").toList) rfl (by decide),
    p4 _ (("Video unavailable").toList) rfl (by decide) (by decide)⟩

theorem ne_nil_of_isEmpty_false {l : List Char} (h : l.isEmpty = false) :
    l ≠ [] := by
  intro he
  subst he
  simp at h

theorem App2.parseBranch_ok (v text : List Char)
    (h : App2.parseBranch v = Except.ok text) :
    (pyStrip text).isEmpty = false := by
  unfold App2.parseBranch at h
  cases he : (pyStrip (App2.parse_vtt v)).isEmpty with
  | true =>
    simp only [he, if_true] at h
    cases h
  | false =>
    simp only [he, Bool.false_eq_true, if_false, Except.ok.injEq] at h
    rw [← h]
    exact he

theorem App2.ydl_ok_strip_ne (env : App2.YdlEnv) (text : List Char)
    (h : App2.get_transcript env = Except.ok text) :
    (pyStrip text).isEmpty = false := by
  unfold App2.get_transcript at h
  cases h1 : env.call1 with
  | dlErr msg =>
    simp only [h1] at h
    cases h
  | exc msg =>
    simp only [h1] at h
    cases h
  | ok info vtts =>
    simp only [h1] at h
    cases vtts with
    | cons v rest => exact App2.parseBranch_ok v text h
    | nil =>
      simp only at h
      cases he : (info.subtitles ++ info.automatic_captions).isEmpty with
      | true =>
        simp only [he, if_true] at h
        cases h
      | false =>
        simp only [he, Bool.false_eq_true, if_false] at h
        cases h2 : env.call2 with
        | dlErr msg =>
          simp only [h2] at h
          cases h
        | exc msg =>
          simp only [h2] at h
          cases h
        | ok vtts2 =>
          simp only [h2] at h
          cases vtts2 with
          | nil =>
            simp only at h
            cases h
          | cons v rest => exact App2.parseBranch_ok v text h

/-- C3: in both variants a successful `get_transcript` result is
non-empty and not entirely whitespace, and a retrieval whose parsed
text strips to nothing is reported as the empty-transcript failure,
never as a success. -/
theorem C3_success_nonempty :
    (∀ (env : App.YttEnv) (text : List Char),
      App.get_transcript env = Except.ok text →
      text ≠ [] ∧ pyStrip text ≠ []) ∧
    (∀ (env : App2.YdlEnv) (text : List Char),
      App2.get_transcript env = Except.ok text →
      text ≠ [] ∧ pyStrip text ≠ []) ∧
    (∀ content : List Char,
      (pyStrip (App2.parse_vtt content)).isEmpty = true →
      App2.parseBranch content = Except.error App2.emptyParseMsg) := by
  refine ⟨?_, ?_, ?_⟩
  · intro env text h
    have hs := App.get_transcript_ok_strip_ne env text h
    refine ⟨?_, ne_nil_of_isEmpty_false hs⟩
    intro he
    subst he
    simp [pyStrip] at hs
  · intro env text h
    have hs := App2.ydl_ok_strip_ne env text h
    refine ⟨?_, ne_nil_of_isEmpty_false hs⟩
    intro he
    subst he
    simp [pyStrip] at hs
  · intro content h
    unfold App2.parseBranch
    simp only [h, if_true]

/-- Witness for C3 on concrete one-track environments. -/
theorem C3_witness :
    App.get_transcript ⟨App.FetchOutcome.ok [("hello").toList], App.ListOutcome.ok []⟩ =
      Except.ok (("hello").toList) ∧
    App2.get_transcript
        ⟨App2.Call1Result.ok ⟨[], []⟩ [("hello").toList], App2.Call2Result.ok []⟩ =
      Except.ok (("hello").toList) ∧
    (("hello").toList ≠ [] ∧ pyStrip (("hello").toList) ≠ []) :=
  ⟨rfl, rfl,
    C3_success_nonempty.1 ⟨App.FetchOutcome.ok [("hello").toList], App.ListOutcome.ok []⟩
      (("hello").toList) rfl⟩

/-! ## Facts about the normalizer's output needed for idempotence -/

theorem splitOnNl_no_nl (s : List Char) : ∀ l ∈ splitOnNl s, '\n' ∉ l := by
  induction s with
  | nil =>
    intro l hl
    simp only [splitOnNl, List.mem_singleton] at hl
    subst hl
    simp
  | cons c rest ih =>
    intro l hl
    simp only [splitOnNl] at hl
    by_cases hc : c = '\n'
    · rw [if_pos hc] at hl
      rcases List.mem_cons.mp hl with h | h
      · subst h
        simp
      · exact ih l h
    · rw [if_neg hc] at hl
      cases hsp : splitOnNl rest with
      | nil =>
        rw [hsp] at hl
        simp only [List.mem_singleton] at hl
        subst hl
        intro hm
        rw [List.mem_singleton] at hm
        exact hc hm.symm
      | cons l0 ls =>
        rw [hsp] at hl
        rcases List.mem_cons.mp hl with h | h
        · subst h
          intro hm
          rcases List.mem_cons.mp hm with h' | h'
          · exact hc h'.symm
          · exact ih l0 (hsp ▸ List.mem_cons_self l0 ls) h'
        · exact ih l (hsp ▸ List.mem_cons_of_mem l0 h)

theorem splitOnNl_single (s : List Char) (h : '\n' ∉ s) : splitOnNl s = [s] := by
  induction s with
  | nil => rfl
  | cons c rest ih =>
    have hc : ¬ c = '\n' := fun he => h (he ▸ List.mem_cons_self c rest)
    have hr : splitOnNl rest = [rest] :=
      ih (fun hm => h (List.mem_cons_of_mem c hm))
    simp only [splitOnNl, if_neg hc, hr]

theorem mem_of_mem_dropWhile {p : Char → Bool} {l : List Char} {c : Char}
    (h : c ∈ l.dropWhile p) : c ∈ l := by
  obtain ⟨a, ha⟩ := List.dropWhile_suffix p (l := l)
  rw [← ha]
  exact List.mem_append_right a h

theorem mem_pyStrip {l : List Char} {c : Char} (h : c ∈ pyStrip l) : c ∈ l := by
  unfold pyStrip at h
  rw [List.mem_reverse] at h
  have h2 := mem_of_mem_dropWhile h
  rw [List.mem_reverse] at h2
  exact mem_of_mem_dropWhile h2

theorem head?_dropWhile_false (p : Char → Bool) (l : List Char) (c : Char)
    (h : (l.dropWhile p).head? = some c) : p c = false := by
  induction l with
  | nil => cases h
  | cons a rest ih =>
    rw [List.dropWhile_cons] at h
    by_cases hp : p a
    · rw [if_pos hp] at h
      exact ih h
    · rw [if_neg hp] at h
      cases h
      exact Bool.eq_false_iff.mpr hp

theorem getLast?_of_suffix {z w : List Char} (hz : z ≠ []) (h : z <:+ w) :
    z.getLast? = w.getLast? := by
  obtain ⟨a, ha⟩ := h
  rw [← ha, List.getLast?_append_of_ne_nil a hz]

theorem pyStrip_head_not_space (x : List Char) (c : Char)
    (h : (pyStrip x).head? = some c) : isSpace c = false := by
  unfold pyStrip at h
  rw [List.head?_reverse] at h
  have hz : ((x.dropWhile isSpace).reverse.dropWhile isSpace) ≠ [] := by
    intro he
    rw [he] at h
    cases h
  rw [getLast?_of_suffix hz (List.dropWhile_suffix isSpace),
    List.getLast?_reverse] at h
  exact head?_dropWhile_false isSpace x c h

theorem pyStrip_getLast_not_space (x : List Char) (c : Char)
    (h : (pyStrip x).getLast? = some c) : isSpace c = false := by
  unfold pyStrip at h
  rw [List.getLast?_reverse] at h
  exact head?_dropWhile_false isSpace _ c h

theorem pyStrip_idem (x : List Char) : pyStrip (pyStrip x) = pyStrip x := by
  have h := pyStrip_sandwich [] (pyStrip x) [] rfl rfl
    (fun c hc => pyStrip_head_not_space x c hc)
    (fun c hc => pyStrip_getLast_not_space x c hc)
  simpa using h

theorem processLines_props : ∀ (ls acc : List (List Char)),
    (∀ l ∈ ls, '\n' ∉ l) →
    (∀ l ∈ acc, l ≠ [] ∧ pyStrip l = l ∧ '\n' ∉ l) →
    ∀ l ∈ App2.processLines ls acc, l ≠ [] ∧ pyStrip l = l ∧ '\n' ∉ l := by
  intro ls
  induction ls with
  | nil =>
    intro acc hls hacc l hl
    simp only [App2.processLines] at hl
    exact hacc l (List.mem_reverse.mp hl)
  | cons l0 ls ih =>
    intro acc hls hacc l hl
    have hl0 : '\n' ∉ l0 := hls l0 (List.mem_cons_self l0 ls)
    have hlsr : ∀ x ∈ ls, '\n' ∉ x := fun x hx => hls x (List.mem_cons_of_mem l0 hx)
    simp only [App2.processLines] at hl
    by_cases h1 : (pyStrip l0).isEmpty = true
    · rw [if_pos h1] at hl
      exact ih acc hlsr hacc l hl
    · rw [if_neg h1] at hl
      by_cases h2 : (App2.hdrWEBVTT.isPrefixOf (pyStrip l0) ||
          App2.hdrKind.isPrefixOf (pyStrip l0) ||
          App2.hdrLanguage.isPrefixOf (pyStrip l0)) = true
      · rw [if_pos h2] at hl
        exact ih acc hlsr hacc l hl
      · rw [if_neg h2] at hl
        by_cases h3 : containsSub App2.arrowSub (pyStrip l0) = true
        · rw [if_pos h3] at hl
          exact ih acc hlsr hacc l hl
        · rw [if_neg h3] at hl
          by_cases h4 : (pyStrip l0).all Char.isDigit = true
          · rw [if_pos h4] at hl
            exact ih acc hlsr hacc l hl
          · rw [if_neg h4] at hl
            by_cases h5 : (pyStrip (App2.removeTags (pyStrip l0))).isEmpty = true
            · rw [if_pos h5] at hl
              exact ih acc hlsr hacc l hl
            · rw [if_neg h5] at hl
              have hP : pyStrip (App2.removeTags (pyStrip l0)) ≠ [] ∧
                  pyStrip (pyStrip (App2.removeTags (pyStrip l0))) =
                    pyStrip (App2.removeTags (pyStrip l0)) ∧
                  '\n' ∉ pyStrip (App2.removeTags (pyStrip l0)) := by
                refine ⟨ne_nil_of_isEmpty_false (Bool.eq_false_iff.mpr h5),
                  pyStrip_idem _, ?_⟩
                intro hm
                exact hl0 (mem_pyStrip (App2.mem_removeTags _ '\n' (mem_pyStrip hm)))
              cases acc with
              | nil =>
                simp only at hl
                refine ih [pyStrip (App2.removeTags (pyStrip l0))] hlsr ?_ l hl
                intro x hx
                rw [List.mem_singleton] at hx
                subst hx
                exact hP
              | cons prev atl =>
                simp only at hl
                by_cases h6 : pyStrip (App2.removeTags (pyStrip l0)) = prev
                · rw [if_pos h6] at hl
                  exact ih (prev :: atl) hlsr hacc l hl
                · rw [if_neg h6] at hl
                  refine ih (pyStrip (App2.removeTags (pyStrip l0)) :: prev :: atl)
                    hlsr ?_ l hl
                  intro x hx
                  rcases List.mem_cons.mp hx with h | h
                  · subst h
                    exact hP
                  · exact hacc x h

theorem joinWith_no_nl (ls : List (List Char)) (h : ∀ l ∈ ls, '\n' ∉ l) :
    '\n' ∉ joinWith ' ' ls := by
  induction ls with
  | nil => simp [joinWith]
  | cons l ls ih =>
    cases ls with
    | nil => simpa [joinWith] using h l (List.mem_cons_self l [])
    | cons l2 ls2 =>
      intro hm
      rw [show joinWith ' ' (l :: l2 :: ls2) = l ++ ' ' :: joinWith ' ' (l2 :: ls2)
        from rfl] at hm
      rcases List.mem_append.mp hm with h' | h'
      · exact h l (List.mem_cons_self l _) h'
      · rcases List.mem_cons.mp h' with h'' | h''
        · exact absurd h'' (by decide)
        · exact ih (fun x hx => h x (List.mem_cons_of_mem l hx)) h''

theorem joinWith_ne_nil (ls : List (List Char)) (hne : ls ≠ [])
    (h : ∀ l ∈ ls, l ≠ []) : joinWith ' ' ls ≠ [] := by
  cases ls with
  | nil => exact absurd rfl hne
  | cons l ls2 =>
    cases ls2 with
    | nil => exact h l (List.mem_cons_self l [])
    | cons l2 ls3 =>
      rw [show joinWith ' ' (l :: l2 :: ls3) = l ++ ' ' :: joinWith ' ' (l2 :: ls3)
        from rfl]
      simp

theorem joinWith_head_not_space (ls : List (List Char)) (c : Char)
    (h : ∀ l ∈ ls, l ≠ [] ∧ pyStrip l = l)
    (hc : (joinWith ' ' ls).head? = some c) : isSpace c = false := by
  induction ls with
  | nil => cases hc
  | cons l ls2 ih =>
    cases ls2 with
    | nil =>
      rw [show joinWith ' ' [l] = l from rfl, ← (h l (List.mem_cons_self l [])).2] at hc
      exact pyStrip_head_not_space l c hc
    | cons l2 ls3 =>
      rw [show joinWith ' ' (l :: l2 :: ls3) = l ++ ' ' :: joinWith ' ' (l2 :: ls3)
          from rfl,
        List.head?_append_of_ne_nil l (h l (List.mem_cons_self l _)).1,
        ← (h l (List.mem_cons_self l _)).2] at hc
      exact pyStrip_head_not_space l c hc

theorem joinWith_getLast_not_space (ls : List (List Char)) (c : Char)
    (h : ∀ l ∈ ls, l ≠ [] ∧ pyStrip l = l)
    (hc : (joinWith ' ' ls).getLast? = some c) : isSpace c = false := by
  induction ls with
  | nil => cases hc
  | cons l ls2 ih =>
    cases ls2 with
    | nil =>
      rw [show joinWith ' ' [l] = l from rfl, ← (h l (List.mem_cons_self l [])).2] at hc
      exact pyStrip_getLast_not_space l c hc
    | cons l2 ls3 =>
      have hrest : ∀ x ∈ l2 :: ls3, x ≠ [] ∧ pyStrip x = x :=
        fun x hx => h x (List.mem_cons_of_mem l hx)
      have hjne : joinWith ' ' (l2 :: ls3) ≠ [] :=
        joinWith_ne_nil (l2 :: ls3) (by simp) (fun x hx => (hrest x hx).1)
      rw [show joinWith ' ' (l :: l2 :: ls3) = l ++ ' ' :: joinWith ' ' (l2 :: ls3)
          from rfl,
        List.getLast?_append_of_ne_nil l (by simp),
        show (' ' :: joinWith ' ' (l2 :: ls3)) = [' '] ++ joinWith ' ' (l2 :: ls3)
          from rfl,
        List.getLast?_append_of_ne_nil [' '] hjne] at hc
      exact ih hrest hc

theorem parse_vtt_kept_props (s : List Char) :
    ∀ l ∈ App2.processLines (splitOnNl s) [],
      l ≠ [] ∧ pyStrip l = l ∧ '\n' ∉ l :=
  processLines_props (splitOnNl s) [] (splitOnNl_no_nl s) (by simp)

theorem parse_vtt_no_nl (s : List Char) : '\n' ∉ App2.parse_vtt s := by
  rw [show App2.parse_vtt s = joinWith ' ' (App2.processLines (splitOnNl s) [])
    from rfl]
  exact joinWith_no_nl _ (fun l hl => (parse_vtt_kept_props s l hl).2.2)

theorem parse_vtt_stripped (s : List Char) :
    pyStrip (App2.parse_vtt s) = App2.parse_vtt s := by
  have hh : ∀ c, (App2.parse_vtt s).head? = some c → isSpace c = false := by
    intro c hc
    rw [show App2.parse_vtt s = joinWith ' ' (App2.processLines (splitOnNl s) [])
      from rfl] at hc
    exact joinWith_head_not_space _ c
      (fun l hl => ⟨(parse_vtt_kept_props s l hl).1, (parse_vtt_kept_props s l hl).2.1⟩) hc
  have hl : ∀ c, (App2.parse_vtt s).getLast? = some c → isSpace c = false := by
    intro c hc
    rw [show App2.parse_vtt s = joinWith ' ' (App2.processLines (splitOnNl s) [])
      from rfl] at hc
    exact joinWith_getLast_not_space _ c
      (fun l hl => ⟨(parse_vtt_kept_props s l hl).1, (parse_vtt_kept_props s l hl).2.1⟩) hc
  have h := pyStrip_sandwich [] (App2.parse_vtt s) [] rfl rfl hh hl
  simpa using h

/-- C8 as stated is false: tag stripping happens after the header
filter, so an input whose only line is a tag followed by `WEBVTT`
normalizes to `WEBVTT`, which a second normalization pass filters out
as a header line. -/
theorem C8_counterexample :
    App2.parse_vtt (App2.parse_vtt (("<c>WEBVTT").toList)) ≠
      App2.parse_vtt (("<c>WEBVTT").toList) := by decide

/-- C8 (amended): `parse_vtt` is idempotent on every input whose
output survives the line filters unchanged — i.e. whose output does
not start with one of the header markers, contains neither the cue
arrow nor an opening tag bracket, and is not a pure digit string (or
is empty).  On such outputs a second pass keeps the single joined line
verbatim. -/
theorem C8_parse_vtt_idem_on_clean (s : List Char)
    (h1 : App2.hdrWEBVTT.isPrefixOf (App2.parse_vtt s) = false)
    (h2 : App2.hdrKind.isPrefixOf (App2.parse_vtt s) = false)
    (h3 : App2.hdrLanguage.isPrefixOf (App2.parse_vtt s) = false)
    (h4 : containsSub App2.arrowSub (App2.parse_vtt s) = false)
    (h5 : '<' ∉ App2.parse_vtt s)
    (h6 : (App2.parse_vtt s).all Char.isDigit = false ∨ App2.parse_vtt s = []) :
    App2.parse_vtt (App2.parse_vtt s) = App2.parse_vtt s := by
  have hnn : '\n' ∉ App2.parse_vtt s := parse_vtt_no_nl s
  have hstr : pyStrip (App2.parse_vtt s) = App2.parse_vtt s := parse_vtt_stripped s
  rcases h6 with h6 | h6
  · have hne : App2.parse_vtt s ≠ [] := by
      intro he
      rw [he] at h6
      simp at h6
    have hemp : (App2.parse_vtt s).isEmpty = false := by
      cases hv : App2.parse_vtt s with
      | nil => exact absurd hv hne
      | cons a t => rfl
    have hunf : App2.parse_vtt (App2.parse_vtt s) =
        joinWith ' ' (App2.processLines (splitOnNl (App2.parse_vtt s)) []) := rfl
    rw [hunf, splitOnNl_single _ hnn]
    simp only [App2.processLines, hstr, hemp, Bool.false_eq_true, if_false, h1, h2, h3,
      h4, h6, Bool.or_false, App2.removeTags_no_lt _ h5, List.reverse_cons,
      List.reverse_nil, List.nil_append]
    rfl
  · rw [h6]
    rfl

/-- Witness for C8's amended statement on a clean one-line input. -/
theorem C8_witness :
    App2.parse_vtt (App2.parse_vtt (("hello world").toList)) =
      App2.parse_vtt (("hello world").toList) :=
  C8_parse_vtt_idem_on_clean (("hello world").toList) (by decide) (by decide)
    (by decide) (by decide) (by decide) (Or.inl (by decide))
